import Mathlib

/-!
Shallow embedding of the indexing/retrieval engine in `wp.py`
(inverted index build, boolean AND retrieval, vector-space ranking,
character-bigram fallback retrieval, and rank-table fusion),
together with theorems settling the specification's claims about it.

Conventions of the embedding:
* the SQLite `postings` table is a list of rows `(term, document_id, times)`;
  a `SELECT document_id FROM postings WHERE term=?` is `rowsOf`;
* Python `set`s of titles are `Finset String`;
* Python `dict`s (insertion ordered) are association lists `List (String × _)`
  in which a new key is appended at the end;
* floating point numbers are modelled by `ℝ` and `math.log` by `Real.log`.
-/

set_option autoImplicit false

namespace Wp

/-- A row of the `postings` table: `(term, document_id, times)`. -/
structure Posting where
  term : String
  document_id : String
  times : Nat
  deriving DecidableEq, Repr

/-- `c.execute("SELECT document_id FROM postings WHERE term=?", (term,)).fetchall()`:
the `document_id` column of all rows whose `term` column equals `term`,
in table order (duplicates kept). -/
def rowsOf (db : List Posting) (t : String) : List String :=
  (db.filter (fun r => r.term == t)).map Posting.document_id

/-- `set(map(lambda c: c[0], cands))` for the candidate rows of `t`. -/
def docsOf (db : List Posting) (t : String) : Finset String :=
  (rowsOf db t).toFinset

/-- `len(cands)`: the number of posting rows for term `t` (document frequency). -/
def df (db : List Posting) (t : String) : Nat :=
  (rowsOf db t).length

/-- `Index.search` (wp.py lines 145-177).  `titles` starts as the empty list and
`flag` as `True`; each loop iteration fetches the candidate set of the term and
either initialises `titles` with it (first iteration, `flag` still `True`) or
intersects it in.  The `if cands == None: continue` guard is dead code:
`fetchall()` returns a list, never `None`, so no term is ever skipped. -/
def search (db : List Posting) : List String → Finset String
  | [] => ∅
  | t :: ts => ts.foldl (fun titles u => titles ∩ docsOf db u) (docsOf db t)

/-- A small concrete postings table used to instantiate proved theorems. -/
def db1 : List Posting :=
  [⟨"a", "d1", 1⟩, ⟨"a", "d2", 1⟩, ⟨"b", "d2", 1⟩]

/-- A row of the `ngrams` table: `(term, document_id)` (presence only). -/
structure NgramRow where
  term : String
  document_id : String
  deriving DecidableEq, Repr

/-- The candidate rows of a bigram in the `ngrams` table, in table order. -/
def rowsOfN (db : List NgramRow) (t : String) : List String :=
  (db.filter (fun r => r.term == t)).map NgramRow.document_id

/-- The set of document ids having a row for bigram `t` in the `ngrams` table. -/
def docsOfN (db : List NgramRow) (t : String) : Finset String :=
  (rowsOfN db t).toFinset

/-- `Index.ngrams_search` (wp.py lines 210-223).  The loop skips bigrams with an
empty candidate list (`if len(cands) == 0: continue`) and `return titles` sits
INSIDE the loop body, so the function returns at the end of the first iteration
whose candidate list is non-empty; there `is_first` is still `True`, so `titles`
is exactly that bigram's candidate set and the `titles & temptitles` branch is
unreachable.  Falling off the loop (empty input, or all candidate lists empty)
returns Python's implicit `None`, modelled as `none`. -/
def ngrams_search (db : List NgramRow) : List String → Option (Finset String)
  | [] => none
  | t :: ts =>
      if (rowsOfN db t).length = 0 then ngrams_search db ts
      else some (docsOfN db t)

/-- A small concrete `ngrams` table used to instantiate proved theorems. -/
def ndb1 : List NgramRow :=
  [⟨"あい", "d1"⟩, ⟨"いう", "d2"⟩]

/-- Lookup in a Python `dict` modelled as an association list. -/
def findVal {β : Type} (d : String) : List (String × β) → Option β
  | [] => none
  | (k, v) :: rest => if k = d then some v else findVal d rest

/-- `Index.mergeTable` (wp.py lines 267-278): iterate over the keys of
`table1`; a key also present in `table2` gets `table1[title] + table2[title] * 0.5`,
a key absent from `table2` keeps `table1[title]`. -/
noncomputable def mergeTable (table1 table2 : List (String × ℝ)) : List (String × ℝ) :=
  table1.map (fun p =>
    match findVal p.1 table2 with
    | some v => (p.1, p.2 + v * 0.5)
    | none => (p.1, p.2))

/-- `documentVectors[cand[0]][n] = termPoint`: if the document already has a
vector, set its component `n` to `x`; otherwise create a fresh all-zero vector
of length `len` (`[0 for i in range(len(terms))]`), set component `n`, and
append the new entry at the end (Python dicts keep insertion order). -/
noncomputable def dvUpdate (dvs : List (String × List ℝ)) (doc : String) (n : ℕ)
    (x : ℝ) (len : ℕ) : List (String × List ℝ) :=
  match findVal doc dvs with
  | some _ => dvs.map (fun p => if p.1 = doc then (p.1, p.2.set n x) else p)
  | none => dvs ++ [(doc, (List.replicate len 0).set n x)]

/-- The shared `for n, term in enumerate(terms)` loop of `Index.sortSearch`
(wp.py lines 184-198) and `Index.sortSearchReturnTable` (lines 230-244),
accumulating `(documentVectors, defaultVector)`.  A term with an empty
candidate list appends `0` to `defaultVector` and `continue`s; otherwise
`termPoint = 1 + log(len(cands)) * log(num_documents / len(cands))` is appended
and every candidate document's vector gets `termPoint` at position `n`.
(The `cands == None` half of the guard is dead: `fetchall()` never returns
`None`.) -/
noncomputable def rankSteps (db : List Posting) (N : ℕ) (len : ℕ) :
    List String → ℕ → List (String × List ℝ) × List ℝ →
      List (String × List ℝ) × List ℝ
  | [], _, acc => acc
  | t :: ts, n, acc =>
      if (rowsOf db t).length = 0 then
        rankSteps db N len ts (n + 1) (acc.1, acc.2 ++ [0])
      else
        rankSteps db N len ts (n + 1)
          ((rowsOf db t).foldl
            (fun dvs cand =>
              dvUpdate dvs cand n
                (1 + Real.log ((rowsOf db t).length) *
                  Real.log ((N : ℝ) / ((rowsOf db t).length))) len)
            acc.1,
           acc.2 ++
             [1 + Real.log ((rowsOf db t).length) *
               Real.log ((N : ℝ) / ((rowsOf db t).length))])

/-- Runs the enumerate loop from its initial state
(`documentVectors = {}`, `defaultVector = []`, `n = 0`). -/
noncomputable def rankLoop (db : List Posting) (N : ℕ) (terms : List String) :
    List (String × List ℝ) × List ℝ :=
  rankSteps db N terms.length terms 0 ([], [])

/-- The per-position query weight appended to `defaultVector` by the loop. -/
noncomputable def termWeight (db : List Posting) (N : ℕ) (t : String) : ℝ :=
  if df db t = 0 then 0
  else 1 + Real.log (df db t) * Real.log ((N : ℝ) / (df db t))

/-- `numpy.dot` on two equal-length vectors. -/
noncomputable def dotList (v w : List ℝ) : ℝ :=
  (List.zipWith (fun a b => a * b) v w).sum

/-- `numpy.linalg.norm`: the Euclidean norm. -/
noncomputable def normList (v : List ℝ) : ℝ :=
  Real.sqrt ((v.map (fun x => x * x)).sum)

/-- `numpy.dot(v, w) / (numpy.linalg.norm(v) * numpy.linalg.norm(w))`. -/
noncomputable def cosSim (v w : List ℝ) : ℝ :=
  dotList v w / (normList v * normList w)

/-- `Index.sortSearch` (wp.py lines 179-208): run the enumerate loop, then scan
`documentVectors` keeping the title with the maximal cosine against
`defaultVector`, starting from `max_cos = -1`, `best_title = ''`. -/
noncomputable def sortSearch (db : List Posting) (N : ℕ) (terms : List String) :
    String :=
  let r := rankLoop db N terms
  (r.1.foldl
    (fun acc p => if acc.1 < cosSim p.2 r.2 then (cosSim p.2 r.2, p.1) else acc)
    ((-1 : ℝ), "")).2

/-- `Index.sortSearchReturnTable` (wp.py lines 225-254): run the enumerate
loop, then map every document of `documentVectors` to its cosine against
`defaultVector`. -/
noncomputable def sortSearchReturnTable (db : List Posting) (N : ℕ)
    (terms : List String) : List (String × ℝ) :=
  let r := rankLoop db N terms
  r.1.map (fun p => (p.1, cosSim p.2 r.2))

/-- A token node produced by the external morphological analyzer:
whether the node is a normal token (`node.is_nor()`), the comma-split feature
vector (`node.feature.split(',')`) and the surface form (`node.surface`). -/
structure MNode where
  is_nor : Bool
  feature : List String
  surface : String
  deriving DecidableEq, Repr

/-- `features[6] if len(features) == 9 else node.surface`: the indexed term is
the lemma (field 6) when the tokenizer yields the 9-field decomposition,
otherwise the surface form. -/
def indexedTerm (nd : MNode) : String :=
  if nd.feature.length = 9 then nd.feature.getD 6 "" else nd.surface

/-- `FilterWords.shouldBeIncluded` (wp.py lines 99-109). -/
def shouldBeIncluded (feature : List String) : Bool :=
  if feature.getD 0 "" == "名詞" then
    feature.getD 1 "" == "サ変接続" || feature.getD 1 "" == "一般" ||
      feature.getD 1 "" == "形容動詞語幹" || feature.getD 1 "" == "固有名詞" ||
      feature.getD 1 "" == "数"
  else if feature.getD 0 "" == "形容詞" then feature.getD 1 "" == "自立"
  else if feature.getD 0 "" == "動詞" then feature.getD 1 "" == "自立"
  else false

/-- `if term in dict: dict[term] += 1 else: dict[term] = 1` on an
insertion-ordered dict. -/
def incr : List (String × Nat) → String → List (String × Nat)
  | [], t => [(t, 1)]
  | (k, v) :: rest, t =>
      if k = t then (k, v + 1) :: rest else (k, v) :: incr rest t

/-- One node of the per-article loop body of `Index.generate`
(wp.py lines 293-301): a normal node that passes the filter bumps the count of
its indexed term. -/
def genStep (d : List (String × Nat)) (nd : MNode) : List (String × Nat) :=
  if nd.is_nor && shouldBeIncluded nd.feature then incr d (indexedTerm nd) else d

/-- The per-article term-frequency dict built by `Index.generate`. -/
def buildDict (nodes : List MNode) : List (String × Nat) :=
  nodes.foldl genStep []

/-- An article together with the token sequence the external tokenizer yields
for its body text (`parser.parse(article.text(), as_nodes=True)`). -/
structure ArticleT where
  id : String
  nodes : List MNode
  deriving DecidableEq, Repr

/-- `Index.generate` (wp.py lines 280-306), restricted to the rows inserted:
for every article, one `INSERT` per distinct key of its term-frequency dict. -/
def generate : List ArticleT → List Posting
  | [] => []
  | a :: rest =>
      (buildDict a.nodes).map (fun p => ⟨p.1, a.id, p.2⟩) ++ generate rest

/-- The number of token occurrences of a document that pass the filter and
whose indexed term is `t`. -/
def countOcc (t : String) (nodes : List MNode) : Nat :=
  (nodes.filter
    (fun nd => (nd.is_nor && shouldBeIncluded nd.feature) && (indexedTerm nd == t))).length

/-- A concrete tokenized article used to instantiate proved theorems:
two normal 9-field noun nodes with lemma `猫`, a particle, a non-normal node,
and a short-feature verb node indexed by its surface form. -/
def articles1 : List ArticleT :=
  [⟨"D1",
    [⟨true, ["名詞", "一般", "x", "x", "x", "x", "猫", "x", "x"], "ネコ"⟩,
     ⟨true, ["助詞", "格助詞"], "が"⟩,
     ⟨true, ["名詞", "一般", "x", "x", "x", "x", "猫", "x", "x"], "猫"⟩,
     ⟨false, ["名詞", "一般", "x", "x", "x", "x", "犬", "x", "x"], "犬"⟩,
     ⟨true, ["動詞", "自立"], "走る"⟩]⟩]

/-- Python `str.strip()` whitespace (ASCII part). -/
def pySpace (c : Char) : Bool :=
  c == ' ' || c == '\t' || c == '\n' || c == '\r' || c == '\x0b' || c == '\x0c'

/-- `query.strip()`: drop leading and trailing whitespace. -/
def pyStrip (s : List Char) : List Char :=
  ((s.dropWhile pySpace).reverse.dropWhile pySpace).reverse

/-- The deletion table `str.maketrans("", "", string.punctuation + "「」、。・『』《》")`. -/
def punctChars : List Char :=
  ['!', '"', '#', '$', '%', '&', '\x27', '(', ')', '*', '+', ',', '-', '.', '/',
   ':', ';', '<', '=', '>', '?', '@', '[', '\\', ']', '^', '_', '\x60', '\x7b',
   '|', '\x7d', '~', '「', '」', '、', '。', '・', '『', '』', '《', '》']

/-- The character class of `re.sub(r'[a-zA-Z0-9¥"¥.¥,¥@]+', '', _)`. -/
def latinOrSelected (c : Char) : Bool :=
  (decide ('a' ≤ c) && decide (c ≤ 'z')) || (decide ('A' ≤ c) && decide (c ≤ 'Z')) ||
    (decide ('0' ≤ c) && decide (c ≤ '9')) || c == '¥' || c == '"' || c == '.' ||
    c == ',' || c == '@'

/-- The character class of the second `re.sub` (selected ASCII symbols and `“`). -/
def sym2Chars : List Char :=
  ['!', '"', '“', '#', '$', '%', '&', '(', ')', '*', '+', '-', '.', ',', '/',
   ':', ';', '<', '=', '>', '?', '@', '[', '\\', ']', '^', '_', '\x60', '\x7b',
   '|', '\x7d', '~']

/-- The character class of `re.sub(r'[\n|\r|\t|年|月|日]', '', _)`
(note: the alternation bars make `|` itself part of the class). -/
def dateChars : List Char :=
  ['\n', '|', '\r', '\t', '年', '月', '日']

/-- The normalization pipeline of `AnalyseQuery.divide_ngrams`
(wp.py lines 129-134): strip, remove spaces, NFKC-normalize, then delete the
punctuation table and the three regex character classes.  Unicode NFKC
normalization is an external capability of the runtime and is taken as the
parameter `nfkc`; the remaining steps are per-character deletions embedded
from the source. -/
def normalizeQuery (nfkc : List Char → List Char) (query : List Char) : List Char :=
  let s0 := nfkc ((pyStrip query).filter (fun c => !(c == ' ')))
  let s1 := s0.filter (fun c => !(punctChars.contains c))
  let s2 := s1.filter (fun c => !(latinOrSelected c))
  let s3 := s2.filter (fun c => !(sym2Chars.contains c))
  s3.filter (fun c => !(dateChars.contains c))

/-- `AnalyseQuery.divide_ngrams` (wp.py lines 127-137):
`[ngrams[i:i+n] for i in range(0, len(ngrams))]` with `n = 2`. -/
def divide_ngrams (nfkc : List Char → List Char) (query : List Char) :
    List (List Char) :=
  (List.range (normalizeQuery nfkc query).length).map
    (fun i => ((normalizeQuery nfkc query).drop i).take 2)

lemma mem_foldl_inter (db : List Posting) (ts : List String) (init : Finset String)
    (d : String) :
    d ∈ ts.foldl (fun titles u => titles ∩ docsOf db u) init ↔
      d ∈ init ∧ ∀ u ∈ ts, d ∈ docsOf db u := by
  induction ts generalizing init with
  | nil => simp
  | cons u us ih =>
      simp only [List.foldl_cons, ih, Finset.mem_inter, List.mem_cons]
      constructor
      · rintro ⟨⟨h1, h2⟩, h3⟩
        exact ⟨h1, fun v hv => by rcases hv with rfl | hv; exact h2; exact h3 v hv⟩
      · rintro ⟨h1, h2⟩
        exact ⟨⟨h1, h2 u (Or.inl rfl)⟩, fun v hv => h2 v (Or.inr hv)⟩

lemma mem_search (db : List Posting) (terms : List String) (d : String) :
    d ∈ search db terms ↔ terms ≠ [] ∧ ∀ t ∈ terms, d ∈ docsOf db t := by
  cases terms with
  | nil => simp [search]
  | cons t ts =>
      simp only [search, mem_foldl_inter, ne_eq, List.cons_ne_nil, not_false_iff,
        true_and, List.mem_cons]
      constructor
      · rintro ⟨h1, h2⟩
        exact fun u hu => by rcases hu with rfl | hu; exact h1; exact h2 u hu
      · intro h
        exact ⟨h t (Or.inl rfl), fun u hu => h u (Or.inr hu)⟩

/-- C1: for a non-empty term sequence, `search` returns exactly the intersection
over all terms of the set of document ids having a posting for that term; a term
with zero postings contributes the empty set and forces an empty result, and the
empty term sequence yields the empty result. -/
theorem search_is_intersection (db : List Posting) (terms : List String) :
    search db [] = ∅ ∧
    (terms ≠ [] → ∀ d, d ∈ search db terms ↔ ∀ t ∈ terms, d ∈ docsOf db t) ∧
    (∀ t ∈ terms, docsOf db t = ∅ → search db terms = ∅) := by
  refine ⟨rfl, ?_, ?_⟩
  · intro hne d
    rw [mem_search]
    exact ⟨fun h => h.2, fun h => ⟨hne, h⟩⟩
  · intro t ht hempty
    apply Finset.eq_empty_iff_forall_not_mem.mpr
    intro d hd
    have h := (mem_search db terms d).mp hd
    have : d ∈ docsOf db t := h.2 t ht
    rw [hempty] at this
    exact absurd this (Finset.not_mem_empty d)

theorem search_is_intersection_witness :
    (["a", "b"] : List String) ≠ [] ∧
      ("d2" ∈ search db1 ["a", "b"] ↔ ∀ t ∈ (["a", "b"] : List String), "d2" ∈ docsOf db1 t) :=
  ⟨by decide, (search_is_intersection db1 ["a", "b"]).2.1 (by decide) "d2"⟩

/-- C8 counterexample: the empty list is a subsequence of `["a"]`, yet
`search db1 ["a"]` (which contains `"d1"`) is not a subset of
`search db1 [] = ∅`, so the claim fails for the empty subsequence. -/
theorem search_subseq_cex :
    ([] : List String).Sublist ["a"] ∧ ¬ search db1 ["a"] ⊆ search db1 [] := by
  refine ⟨List.nil_sublist _, ?_⟩
  intro h
  have hd : "d1" ∈ search db1 ["a"] := by decide
  have := h hd
  simp [search] at this

/-- C8 (amended): for every NON-EMPTY subsequence `T'` of `T`,
`search db T ⊆ search db T'`; no exception for removed zero-candidate terms is
needed (removing a zero-candidate term only grows the result). -/
theorem search_antitone_subseq (db : List Posting) (T T' : List String)
    (hsub : T'.Sublist T) (hne : T' ≠ []) :
    search db T ⊆ search db T' := by
  intro d hd
  obtain ⟨hTne, hall⟩ := (mem_search db T d).mp hd
  exact (mem_search db T' d).mpr ⟨hne, fun t ht => hall t (hsub.subset ht)⟩

theorem search_antitone_subseq_witness :
    (["b"] : List String).Sublist ["a", "b"] ∧ (["b"] : List String) ≠ [] ∧
      search db1 ["a", "b"] ⊆ search db1 ["b"] :=
  ⟨by decide, by decide,
    search_antitone_subseq db1 ["a", "b"] ["b"] (by decide) (by decide)⟩

/-- C9: the boolean search result is invariant under permutation of the query
terms and under concatenating the query with itself. -/
theorem search_perm_dup (db : List Posting) (T P : List String) (hp : T.Perm P) :
    search db T = search db P ∧ search db (T ++ T) = search db T := by
  constructor
  · ext d
    rw [mem_search, mem_search]
    constructor
    · rintro ⟨hne, hall⟩
      refine ⟨fun h => hne ?_, fun t ht => hall t (hp.mem_iff.mpr ht)⟩
      rw [h] at hp
      exact hp.eq_nil
    · rintro ⟨hne, hall⟩
      refine ⟨fun h => hne ?_, fun t ht => hall t (hp.mem_iff.mp ht)⟩
      rw [h] at hp
      exact hp.symm.eq_nil
  · ext d
    rw [mem_search, mem_search]
    simp only [ne_eq, List.append_eq_nil, List.mem_append, or_self]
    tauto

theorem search_perm_dup_witness :
    (["a", "b"] : List String).Perm ["b", "a"] ∧
      search db1 ["a", "b"] = search db1 ["b", "a"] ∧
      search db1 (["a", "b"] ++ ["a", "b"]) = search db1 ["a", "b"] :=
  ⟨List.Perm.swap "b" "a" [],
    (search_perm_dup db1 ["a", "b"] ["b", "a"] (List.Perm.swap "b" "a" [])).1,
    (search_perm_dup db1 ["a", "b"] ["b", "a"] (List.Perm.swap "b" "a" [])).2⟩

/-- C5: `ngrams_search` returns at the first bigram (in sequence order) whose
posting set is non-empty, and the result is exactly that bigram's document set;
bigrams after it (here: an arbitrary `post`) are never consulted, so no
intersection across bigrams is computed. -/
theorem ngrams_search_first_nonempty (db : List NgramRow) (pre post : List String)
    (t : String) (hpre : ∀ u ∈ pre, rowsOfN db u = []) (ht : rowsOfN db t ≠ []) :
    ngrams_search db (pre ++ t :: post) = some (docsOfN db t) := by
  induction pre with
  | nil =>
      have hlen : (rowsOfN db t).length ≠ 0 := fun h => ht (List.length_eq_zero.mp h)
      simp [ngrams_search, hlen]
  | cons u us ih =>
      have hu : rowsOfN db u = [] := hpre u (List.mem_cons_self u us)
      simp only [List.cons_append, ngrams_search, hu, List.length_nil, if_pos rfl]
      exact ih fun v hv => hpre v (List.mem_cons_of_mem u hv)

theorem ngrams_search_first_nonempty_witness :
    (∀ u ∈ (["xx"] : List String), rowsOfN ndb1 u = []) ∧ rowsOfN ndb1 "あい" ≠ [] ∧
      ngrams_search ndb1 (["xx"] ++ "あい" :: ["いう"]) = some (docsOfN ndb1 "あい") :=
  ⟨by decide, by decide,
    ngrams_search_first_nonempty ndb1 ["xx"] ["いう"] "あい" (by decide) (by decide)⟩

/-- C10: on the empty bigram sequence, and whenever no bigram in the sequence
has any posting, `ngrams_search` returns the absence value `none` rather than an
empty set of document ids. -/
theorem ngrams_search_none (db : List NgramRow) (ngrams : List String)
    (h : ∀ u ∈ ngrams, rowsOfN db u = []) :
    ngrams_search db [] = none ∧ ngrams_search db ngrams = none := by
  refine ⟨rfl, ?_⟩
  induction ngrams with
  | nil => rfl
  | cons u us ih =>
      have hu : rowsOfN db u = [] := h u (List.mem_cons_self u us)
      simp only [ngrams_search, hu, List.length_nil, if_pos rfl]
      exact ih fun v hv => h v (List.mem_cons_of_mem u hv)

theorem ngrams_search_none_witness :
    (∀ u ∈ (["xx", "yy"] : List String), rowsOfN ndb1 u = []) ∧
      ngrams_search ndb1 [] = none ∧ ngrams_search ndb1 ["xx", "yy"] = none :=
  ⟨by decide, (ngrams_search_none ndb1 ["xx", "yy"] (by decide)).1,
    (ngrams_search_none ndb1 ["xx", "yy"] (by decide)).2⟩

lemma findVal_mergeTable (t1 t2 : List (String × ℝ)) (d : String) :
    findVal d (mergeTable t1 t2) =
      (findVal d t1).map (fun v =>
        match findVal d t2 with
        | some w => v + w * 0.5
        | none => v) := by
  induction t1 with
  | nil => rfl
  | cons p rest ih =>
      obtain ⟨k, x⟩ := p
      by_cases hk : k = d
      · subst hk
        cases h2 : findVal k t2 <;> simp [mergeTable, findVal, h2]
      · cases h2 : findVal k t2 <;>
          simp only [mergeTable, List.map_cons, findVal, h2, if_neg hk] <;>
          exact ih

/-- C3: `mergeTable A B` maps every document of `A` to `A`'s score plus
`0.5` times `B`'s score when the document is also in `B`, to `A`'s score
unchanged when it is absent from `B`, and contains no document absent
from `A`. -/
theorem mergeTable_spec (t1 t2 : List (String × ℝ)) (d : String) :
    (∀ v w, findVal d t1 = some v → findVal d t2 = some w →
      findVal d (mergeTable t1 t2) = some (v + w * 0.5)) ∧
    (∀ v, findVal d t1 = some v → findVal d t2 = none →
      findVal d (mergeTable t1 t2) = some v) ∧
    (findVal d t1 = none → findVal d (mergeTable t1 t2) = none) := by
  refine ⟨?_, ?_, ?_⟩
  · intro v w h1 h2
    rw [findVal_mergeTable, h1]
    simp [h2]
  · intro v h1 h2
    rw [findVal_mergeTable, h1]
    simp [h2]
  · intro h1
    rw [findVal_mergeTable, h1]
    rfl

theorem mergeTable_spec_witness :
    findVal "D1" (mergeTable [("D1", (2 : ℝ)), ("D2", 1)] [("D1", 1)]) =
        some (2 + 1 * 0.5) ∧
      findVal "D2" (mergeTable [("D1", (2 : ℝ)), ("D2", 1)] [("D1", 1)]) = some 1 :=
  ⟨(mergeTable_spec [("D1", (2 : ℝ)), ("D2", 1)] [("D1", 1)] "D1").1 2 1
      (by simp [findVal]) (by simp [findVal]),
    (mergeTable_spec [("D1", (2 : ℝ)), ("D2", 1)] [("D1", 1)] "D2").2.1 1
      (by simp [findVal]) (by simp [findVal])⟩

lemma rankSteps_snd (db : List Posting) (N len : ℕ) :
    ∀ (ts : List String) (n : ℕ) (acc : List (String × List ℝ) × List ℝ),
      (rankSteps db N len ts n acc).2 = acc.2 ++ ts.map (termWeight db N) := by
  intro ts
  induction ts with
  | nil => intro n acc; simp [rankSteps]
  | cons t ts ih =>
      intro n acc
      by_cases h : (rowsOf db t).length = 0
      · have hw : termWeight db N t = 0 := by simp [termWeight, df, h]
        simp only [rankSteps, if_pos h, ih, List.map_cons, hw, List.append_assoc,
          List.singleton_append]
      · have hw : termWeight db N t =
            1 + Real.log ((rowsOf db t).length) *
              Real.log ((N : ℝ) / ((rowsOf db t).length)) := by
          simp [termWeight, df, h]
        simp only [rankSteps, if_neg h, ih, List.map_cons, hw, List.append_assoc,
          List.singleton_append]

lemma rankLoop_snd (db : List Posting) (N : ℕ) (terms : List String) :
    (rankLoop db N terms).2 = terms.map (termWeight db N) := by
  simp [rankLoop, rankSteps_snd]

/-- C2: in the ranking operations' shared query-vector construction
(the `defaultVector` of `sortSearch` and `sortSearchReturnTable`, i.e.
`(rankLoop db N terms).2`), the weight at every query-term position `n` is `0`
when the term at that position has no postings (`df = 0`) and otherwise
`1 + ln(df) * ln(N / df)`, with `df` the number of posting rows of the term
and `N` the collection's document count. -/
theorem rank_defaultVector_weights (db : List Posting) (N : ℕ)
    (terms : List String) (n : ℕ) (h : n < terms.length) :
    (rankLoop db N terms).2.length = terms.length ∧
    (rankLoop db N terms).2.getD n 0 =
      (if df db (terms.getD n "") = 0 then 0
       else 1 + Real.log (df db (terms.getD n "")) *
         Real.log ((N : ℝ) / (df db (terms.getD n "")))) := by
  rw [rankLoop_snd]
  refine ⟨List.length_map _ _, ?_⟩
  have hget : (terms.map (termWeight db N)).getD n 0 =
      termWeight db N (terms.getD n "") := by
    rw [List.getD_eq_getElem?_getD, List.getElem?_map,
      List.getElem?_eq_getElem h, List.getD_eq_getElem?_getD,
      List.getElem?_eq_getElem h]
    rfl
  rw [hget]
  rfl

theorem rank_defaultVector_weights_witness :
    (rankLoop db1 3 ["a"]).2.length = (["a"] : List String).length ∧
    (rankLoop db1 3 ["a"]).2.getD 0 0 =
      (if df db1 ((["a"] : List String).getD 0 "") = 0 then 0
       else 1 + Real.log (df db1 ((["a"] : List String).getD 0 "")) *
         Real.log ((3 : ℝ) / (df db1 ((["a"] : List String).getD 0 "")))) :=
  rank_defaultVector_weights db1 3 ["a"] 0 (by decide)

lemma rankSteps_all_zero (db : List Posting) (N len : ℕ) :
    ∀ (ts : List String) (n : ℕ) (dvs : List (String × List ℝ)) (dv : List ℝ),
      (∀ t ∈ ts, df db t = 0) →
      rankSteps db N len ts n (dvs, dv) = (dvs, dv ++ List.replicate ts.length 0) := by
  intro ts
  induction ts with
  | nil => intro n dvs dv _; simp [rankSteps]
  | cons t ts ih =>
      intro n dvs dv h
      have ht : (rowsOf db t).length = 0 := h t (List.mem_cons_self t ts)
      rw [rankSteps, if_pos ht, ih (n + 1) dvs (dv ++ [0])
        (fun u hu => h u (List.mem_cons_of_mem t hu))]
      simp [List.replicate_succ]

/-- C4 (code behavior at the failing input): on a degenerate query — every
query term unseen in the index — `documentVectors` stays empty, so no division
(and hence no error or NaN sentinel) ever happens; `sortSearch` returns the
initial `best_title = ''` and `sortSearchReturnTable` returns the empty table,
exactly the values the empty query also produces, so the degenerate case is
indistinguishable from an ordinary zero-match result. -/
theorem degenerate_query_is_silent (db : List Posting) (N : ℕ)
    (terms : List String) (h : ∀ t ∈ terms, df db t = 0) :
    sortSearch db N terms = "" ∧ sortSearchReturnTable db N terms = [] ∧
    sortSearch db N [] = "" ∧ sortSearchReturnTable db N [] = [] := by
  have hr : rankLoop db N terms = ([], List.replicate terms.length 0) := by
    rw [rankLoop, rankSteps_all_zero db N terms.length terms 0 [] [] h]
    rfl
  have hr0 : rankLoop db N [] = ([], []) := rfl
  refine ⟨?_, ?_, ?_, ?_⟩
  · simp [sortSearch, hr]
  · simp [sortSearchReturnTable, hr]
  · simp [sortSearch, hr0]
  · simp [sortSearchReturnTable, hr0]

theorem degenerate_query_is_silent_witness :
    (∀ t ∈ (["z"] : List String), df db1 t = 0) ∧
      sortSearch db1 3 ["z"] = "" ∧ sortSearchReturnTable db1 3 ["z"] = [] :=
  ⟨by decide, (degenerate_query_is_silent db1 3 ["z"] (by decide)).1,
    (degenerate_query_is_silent db1 3 ["z"] (by decide)).2.1⟩

/-- C7: `divide_ngrams` first runs the normalization pipeline and then, for a
normalized string of length `L`, returns exactly `L` sliding windows: the
window at position `i` is the 2-character substring starting at `i`, of length
2 for every `i ≤ L - 2`, and the kept final incomplete window has length 1 at
position `L - 1`. -/
theorem divide_ngrams_windows (nfkc : List Char → List Char) (query : List Char)
    (i : ℕ) (h : i < (normalizeQuery nfkc query).length) :
    (divide_ngrams nfkc query).length = (normalizeQuery nfkc query).length ∧
    (divide_ngrams nfkc query).getD i [] =
      ((normalizeQuery nfkc query).drop i).take 2 ∧
    (i + 2 ≤ (normalizeQuery nfkc query).length →
      ((divide_ngrams nfkc query).getD i []).length = 2) ∧
    (i + 1 = (normalizeQuery nfkc query).length →
      ((divide_ngrams nfkc query).getD i []).length = 1) := by
  have hget : (divide_ngrams nfkc query).getD i [] =
      ((normalizeQuery nfkc query).drop i).take 2 := by
    rw [divide_ngrams, List.getD_eq_getElem?_getD, List.getElem?_map,
      List.getElem?_range h]
    rfl
  refine ⟨by simp [divide_ngrams], hget, ?_, ?_⟩
  · intro h2
    rw [hget, List.length_take, List.length_drop]
    omega
  · intro h1
    rw [hget, List.length_take, List.length_drop]
    omega

theorem divide_ngrams_windows_witness :
    0 < (normalizeQuery id ['あ', 'い', 'う', 'え']).length ∧
    divide_ngrams id ['あ', 'い', 'う', 'え'] =
      [['あ', 'い'], ['い', 'う'], ['う', 'え'], ['え']] ∧
    (divide_ngrams id ['あ', 'い', 'う', 'え']).getD 0 [] =
      ((normalizeQuery id ['あ', 'い', 'う', 'え']).drop 0).take 2 :=
  ⟨by decide, by decide,
    (divide_ngrams_windows id ['あ', 'い', 'う', 'え'] 0 (by decide)).2.1⟩

lemma findVal_incr_self (d : List (String × Nat)) (t : String) :
    findVal t (incr d t) = some ((findVal t d).getD 0 + 1) := by
  induction d with
  | nil => simp [incr, findVal]
  | cons p rest ih =>
      obtain ⟨k, v⟩ := p
      by_cases hk : k = t
      · subst hk
        simp [incr, findVal]
      · simp [incr, findVal, hk, ih]

lemma findVal_incr_ne (d : List (String × Nat)) (key u : String) (h : u ≠ key) :
    findVal u (incr d key) = findVal u d := by
  induction d with
  | nil => simp [incr, findVal, h.symm]
  | cons p rest ih =>
      obtain ⟨k, v⟩ := p
      by_cases hk : k = key
      · subst hk
        simp [incr, findVal, h.symm]
      · by_cases hku : k = u
        · subst hku
          simp [incr, findVal, hk]
        · simp [incr, findVal, hk, hku, ih]

lemma mem_keys_incr (d : List (String × Nat)) (t u : String)
    (h : u ∈ (incr d t).map Prod.fst) : u ∈ d.map Prod.fst ∨ u = t := by
  induction d with
  | nil =>
      simp [incr] at h
      exact Or.inr h
  | cons p rest ih =>
      obtain ⟨k, v⟩ := p
      by_cases hk : k = t
      · subst hk
        exact Or.inl (by simpa [incr] using h)
      · simp only [incr, if_neg hk, List.map_cons, List.mem_cons] at h ⊢
        rcases h with rfl | h'
        · exact Or.inl (Or.inl rfl)
        · rcases ih h' with hl | hr
          · exact Or.inl (Or.inr hl)
          · exact Or.inr hr

lemma incr_keys_nodup (d : List (String × Nat)) (t : String)
    (hd : (d.map Prod.fst).Nodup) : ((incr d t).map Prod.fst).Nodup := by
  induction d with
  | nil => simp [incr]
  | cons p rest ih =>
      obtain ⟨k, v⟩ := p
      by_cases hk : k = t
      · subst hk
        simpa [incr] using hd
      · simp only [List.map_cons, List.nodup_cons] at hd
        obtain ⟨hk1, hk2⟩ := hd
        simp only [incr, if_neg hk, List.map_cons, List.nodup_cons]
        refine ⟨fun hmem => ?_, ih hk2⟩
        rcases mem_keys_incr rest t k hmem with hin | heq
        · exact hk1 hin
        · exact hk heq

lemma foldl_genStep_keys_nodup (nodes : List MNode) :
    ∀ d : List (String × Nat), (d.map Prod.fst).Nodup →
      ((nodes.foldl genStep d).map Prod.fst).Nodup := by
  induction nodes with
  | nil => intro d hd; simpa using hd
  | cons nd nodes ih =>
      intro d hd
      rw [List.foldl_cons]
      apply ih
      unfold genStep
      by_cases hm : (nd.is_nor && shouldBeIncluded nd.feature) = true
      · rw [if_pos hm]
        exact incr_keys_nodup d _ hd
      · rw [if_neg hm]
        exact hd

lemma buildDict_keys_nodup (nodes : List MNode) :
    ((buildDict nodes).map Prod.fst).Nodup :=
  foldl_genStep_keys_nodup nodes [] (by simp)

lemma countOcc_cons (t : String) (nd : MNode) (nodes : List MNode) :
    countOcc t (nd :: nodes) =
      if (nd.is_nor && shouldBeIncluded nd.feature) && (indexedTerm nd == t)
      then countOcc t nodes + 1 else countOcc t nodes := by
  by_cases hp :
      ((nd.is_nor && shouldBeIncluded nd.feature) && (indexedTerm nd == t)) = true
  · simp [countOcc, List.filter_cons, hp]
  · simp [countOcc, List.filter_cons, hp]

lemma foldl_genStep_count (t : String) (nodes : List MNode) :
    ∀ d : List (String × Nat),
      (findVal t (nodes.foldl genStep d)).getD 0 =
        (findVal t d).getD 0 + countOcc t nodes := by
  induction nodes with
  | nil => intro d; simp [countOcc]
  | cons nd nodes ih =>
      intro d
      rw [List.foldl_cons, ih, countOcc_cons]
      by_cases hm : (nd.is_nor && shouldBeIncluded nd.feature) = true
      · by_cases ht : indexedTerm nd = t
        · rw [genStep, if_pos hm, if_pos (by simp [hm, ht])]
          rw [ht, findVal_incr_self]
          simp only [Option.getD_some]
          omega
        · rw [genStep, if_pos hm, if_neg (by simp [hm, ht])]
          rw [findVal_incr_ne d (indexedTerm nd) t (fun h => ht h.symm)]
      · rw [genStep, if_neg hm, if_neg (by simp [hm])]

lemma buildDict_count (t : String) (nodes : List MNode) :
    (findVal t (buildDict nodes)).getD 0 = countOcc t nodes := by
  have h := foldl_genStep_count t nodes []
  simpa [buildDict, findVal] using h

lemma mem_findVal {β : Type} (d : List (String × β)) :
    ∀ (t : String) (c : β), (d.map Prod.fst).Nodup → (t, c) ∈ d →
      findVal t d = some c := by
  induction d with
  | nil => intro t c _ h; cases h
  | cons p rest ih =>
      intro t c hnd hm
      obtain ⟨k, v⟩ := p
      simp only [List.map_cons, List.nodup_cons] at hnd
      rcases List.mem_cons.mp hm with heq | hm'
      · injection heq with h1 h2
        subst h1; subst h2
        simp [findVal]
      · have hk : k ≠ t := by
          intro hkt
          subst hkt
          exact hnd.1 (List.mem_map.mpr ⟨(k, c), hm', rfl⟩)
        simp [findVal, hk, ih t c hnd.2 hm']

lemma mem_generate (articles : List ArticleT) (r : Posting)
    (h : r ∈ generate articles) :
    ∃ a ∈ articles, r.document_id = a.id ∧ (r.term, r.times) ∈ buildDict a.nodes := by
  induction articles with
  | nil => cases h
  | cons a rest ih =>
      simp only [generate, List.mem_append] at h
      rcases h with hb | hr
      · obtain ⟨p, hp, rfl⟩ := List.mem_map.mp hb
        exact ⟨a, List.mem_cons_self a rest, rfl, by simpa using hp⟩
      · obtain ⟨b, hb, h1, h2⟩ := ih hr
        exact ⟨b, List.mem_cons_of_mem a hb, h1, h2⟩

lemma generate_pairwise (articles : List ArticleT)
    (hids : (articles.map ArticleT.id).Nodup) :
    List.Pairwise
      (fun r1 r2 : Posting =>
        ¬(r1.term = r2.term ∧ r1.document_id = r2.document_id))
      (generate articles) := by
  induction articles with
  | nil => exact List.Pairwise.nil
  | cons a rest ih =>
      simp only [List.map_cons, List.nodup_cons] at hids
      obtain ⟨hid, hids'⟩ := hids
      simp only [generate]
      rw [List.pairwise_append]
      refine ⟨?_, ih hids', ?_⟩
      · rw [List.pairwise_map]
        have hnd : List.Pairwise (fun p q : String × Nat => p.1 ≠ q.1)
            (buildDict a.nodes) :=
          List.pairwise_map.mp (buildDict_keys_nodup a.nodes)
        refine hnd.imp ?_
        intro p q hne hpq
        exact hne hpq.1
      · intro r1 h1 r2 h2
        obtain ⟨p, hp, rfl⟩ := List.mem_map.mp h1
        obtain ⟨b, hb, hdoc, _⟩ := mem_generate rest r2 h2
        rintro ⟨_, hdd⟩
        exact hid (List.mem_map.mpr ⟨b, hb, (hdd.trans hdoc).symm⟩)

/-- C6: in one run of `generate`, every inserted posting row's frequency equals
the number of token occurrences of its document that pass the filter and whose
indexed term (lemma for 9-field tokens, surface form otherwise) equals the
row's term; and (for distinct document ids) at most one row is inserted per
distinct (term, document) pair. -/
theorem generate_freq_unique (articles : List ArticleT)
    (hids : (articles.map ArticleT.id).Nodup) :
    (∀ r ∈ generate articles, ∃ a ∈ articles,
        r.document_id = a.id ∧ r.times = countOcc r.term a.nodes) ∧
    List.Pairwise
      (fun r1 r2 : Posting =>
        ¬(r1.term = r2.term ∧ r1.document_id = r2.document_id))
      (generate articles) := by
  refine ⟨?_, generate_pairwise articles hids⟩
  intro r hr
  obtain ⟨a, ha, hdoc, hmem⟩ := mem_generate articles r hr
  refine ⟨a, ha, hdoc, ?_⟩
  have hfv : findVal r.term (buildDict a.nodes) = some r.times :=
    mem_findVal _ r.term r.times (buildDict_keys_nodup a.nodes) hmem
  have hc := buildDict_count r.term a.nodes
  rw [hfv] at hc
  simpa using hc

theorem generate_freq_unique_witness :
    (articles1.map ArticleT.id).Nodup ∧
    generate articles1 = [⟨"猫", "D1", 2⟩, ⟨"走る", "D1", 1⟩] ∧
    (∀ r ∈ generate articles1, ∃ a ∈ articles1,
        r.document_id = a.id ∧ r.times = countOcc r.term a.nodes) :=
  ⟨by decide, by decide, (generate_freq_unique articles1 (by decide)).1⟩

end Wp
